import Mathlib

/-!
Shallow embedding of the DayTrading intraday core: the rule evaluator
(`intraday/strategy/rules.py`), the scoring and ranking engine
(`intraday/strategy/engine.py`), the signal persistence step of the
orchestrator (`intraday/orchestrator.py`), and the trade lifecycle manager
(`intraday/exec/trade_manager.py`).  Python floats are modelled as rationals,
Python dicts as insertion-ordered association lists, and database plus order
gateway effects as an explicit event log threaded through the state.
-/

/-- Python `round` with one argument: round half to even, as an integer. -/
def pyRound (q : ℚ) : ℤ :=
  if q - ⌊q⌋ < 1/2 then ⌊q⌋
  else if 1/2 < q - ⌊q⌋ then ⌊q⌋ + 1
  else if 2 ∣ ⌊q⌋ then ⌊q⌋ else ⌊q⌋ + 1

/-- Python `a or b` over optional floats: `a` when present and non-zero
(truthy), otherwise `b`.  Models expressions such as
`row.get("c") or row.get("close")` in `rules.py`. -/
def pyOr (a b : Option ℚ) : Option ℚ :=
  match a with
  | some v => if v = 0 then b else some v
  | none => b

/-- One feature-snapshot row (the per-symbol dict built by
`features.build_snapshot`); every field the core reads, each optional
because the Python dict may lack the key. -/
structure FeatureRow where
  c : Option ℚ := none
  close : Option ℚ := none
  vwap : Option ℚ := none
  ema_fast : Option ℚ := none
  ema_slow : Option ℚ := none
  volume_spike : Option ℚ := none
  consolidation : Option ℚ := none
  context_bias : Option ℚ := none
  atr : Option ℚ := none
deriving DecidableEq

/-- Result of one rule check (`rules.RuleResult`). -/
structure RuleResult where
  passed : Bool
  reason : String
deriving DecidableEq

/-- `rules.ema_cross_ok`. -/
def ema_cross_ok (row : FeatureRow) : RuleResult :=
  match row.ema_fast, row.ema_slow, pyOr row.c row.close with
  | some fast, some slow, some cl =>
      let passed := slow < fast ∧ fast < cl
      { passed := decide passed
        reason := if passed then "EMA fast above slow" else "EMA alignment missing" }
  | _, _, _ => { passed := false, reason := "missing EMA data" }

/-- `rules.vwap_ok`: note that when VWAP or close is missing the result is
`not enforce`, so the rule fails closed when enforcement is on. -/
def vwap_ok (row : FeatureRow) (enforce : Bool) : RuleResult :=
  match row.vwap, pyOr row.c row.close with
  | some vwap_val, some cl =>
      let passed := vwap_val ≤ cl ∨ enforce = false
      { passed := decide passed
        reason := if passed then "Price above VWAP" else "Below VWAP" }
  | _, _ => { passed := !enforce, reason := "vwap unavailable" }

/-- `rules.volume_ok`. -/
def volume_ok (row : FeatureRow) (spike_mult : ℚ) : RuleResult :=
  match row.volume_spike with
  | some spike =>
      let passed := spike_mult ≤ spike
      { passed := decide passed
        reason := if passed then "Volume spike" else "Volume muted" }
  | none => { passed := false, reason := "volume data missing" }

/-- `rules.not_consolidating`. -/
def not_consolidating (row : FeatureRow) (threshold : ℚ) : RuleResult :=
  match row.consolidation with
  | some score =>
      let passed := score ≤ threshold
      { passed := decide passed
        reason := if passed then "Range expansion ok" else "Still consolidating" }
  | none => { passed := false, reason := "consolidation unknown" }

/-- `ai.sentiment.SentimentResult`. -/
structure SentimentResult where
  score : ℚ
  gate : String
  reasons : List String
deriving DecidableEq

/-- `engine.RankedSignal`. -/
structure RankedSignal where
  symbol : String
  base_score : ℚ
  ai_adjustment : ℚ
  context_bias : ℚ
  score : ℚ
  decision : String
  reasons : List String
  gate : String
deriving DecidableEq

/-- The settings fields the core reads (`settings.AppSettings`), with the
source defaults. -/
structure AppSettings where
  vol_spike_mult : ℚ := 2
  vwap_enforce : Bool := true
  top_k_execute : ℕ := 20
  risk_pct_per_trade : ℚ := 1
  atr_mult : ℚ := 3/2
  scale1_pct : ℚ := 4
  target_pct : ℚ := 8
deriving DecidableEq

/-- The defaults of `AppSettings` in `settings.py`. -/
def defaultSettings : AppSettings := {}

/-- Lookup in an insertion-ordered association list (a Python dict). -/
def lookupKey {α : Type} (l : List (String × α)) (k : String) : Option α :=
  match l with
  | [] => none
  | (k₁, v) :: rest => if k₁ = k then some v else lookupKey rest k

/-- Python dict assignment: replace in place when the key exists, append
otherwise. -/
def updateKey {α : Type} (l : List (String × α)) (k : String) (v : α) :
    List (String × α) :=
  match l with
  | [] => [(k, v)]
  | (k₁, v₁) :: rest =>
      if k₁ = k then (k, v) :: rest else (k₁, v₁) :: updateKey rest k v

/-- Python `dict.pop(k, None)`: drop the binding of `k`. -/
def eraseKey {α : Type} (l : List (String × α)) (k : String) :
    List (String × α) :=
  match l with
  | [] => []
  | (k₁, v₁) :: rest =>
      if k₁ = k then rest else (k₁, v₁) :: eraseKey rest k

/-- The neutral default used by `engine.rank_candidates` when a symbol has no
sentiment entry. -/
def neutralSentiment : SentimentResult :=
  { score := 0, gate := "PASS", reasons := ["no news"] }

/-- The per-symbol body of the loop in `engine.rank_candidates`. -/
def evalSymbol (settings : AppSettings) (sentiment : List (String × SentimentResult))
    (symbol : String) (row : FeatureRow) : RankedSignal :=
  let ema_res := ema_cross_ok row
  let vwap_res := vwap_ok row settings.vwap_enforce
  let vol_res := volume_ok row settings.vol_spike_mult
  let cons_res := not_consolidating row (5/100)
  let base_score : ℚ :=
    (if ema_res.passed then 25 else 0) + (if vwap_res.passed then 25 else 0) +
    (if vol_res.passed then 25 else 0) + (if cons_res.passed then 25 else 0)
  let sentiment_res := (lookupKey sentiment symbol).getD neutralSentiment
  let ai_component := max (min sentiment_res.score 1) (-1) * 30
  let context_bias := (row.context_bias.getD 0) * 10
  if sentiment_res.gate = "VETO" then
    { symbol := symbol, base_score := base_score, ai_adjustment := ai_component
      context_bias := context_bias, score := 0, decision := "skip_ai_veto"
      reasons := ["AI veto"], gate := "VETO" }
  else
    let total := max (base_score + ai_component + context_bias) 0
    { symbol := symbol, base_score := base_score, ai_adjustment := ai_component
      context_bias := context_bias, score := total
      decision := if 0 < total then "enter_long" else "observe"
      reasons := [ema_res.reason, vwap_res.reason, vol_res.reason, cons_res.reason]
                 ++ sentiment_res.reasons
      gate := sentiment_res.gate }

/-- Stable insertion for a descending sort on `score` (ties keep original
order, matching the stable Python sort with `reverse=True`). -/
def insertDesc (x : RankedSignal) : List RankedSignal → List RankedSignal
  | [] => [x]
  | y :: ys => if y.score ≤ x.score then x :: y :: ys else y :: insertDesc x ys

/-- Stable descending sort on `score`. -/
def sortDesc : List RankedSignal → List RankedSignal
  | [] => []
  | x :: xs => insertDesc x (sortDesc xs)

/-- The full evaluated list built by the loop in `engine.rank_candidates`,
before sorting and truncation. -/
def evaluate_candidates (features : List (String × FeatureRow))
    (sentiment : List (String × SentimentResult)) (settings : AppSettings) :
    List RankedSignal :=
  features.map (fun e => evalSymbol settings sentiment e.1 e.2)

/-- `engine.rank_candidates`: evaluate every symbol with a feature row, sort
descending by score, and truncate to `top_k_execute`. -/
def rank_candidates (features : List (String × FeatureRow))
    (sentiment : List (String × SentimentResult)) (settings : AppSettings) :
    List RankedSignal :=
  (sortDesc (evaluate_candidates features sentiment settings)).take
    settings.top_k_execute

/-- `models.SignalRecord`: the audit row written by
`Orchestrator._persist_signals` (fields the claims reference). -/
structure SignalRecord where
  symbol : String
  ts : ℕ
  base_score : ℚ
  ai_adjustment : ℚ
  final_score : ℚ
  decision : String
deriving DecidableEq

/-- `ai.regime.current_regime().multiplier`: the placeholder neutral regime. -/
def current_regime_multiplier : ℚ := 1

/-- The score adjustment loop in `Orchestrator.run_cycle` that multiplies
each ranked score by the regime multiplier. -/
def apply_regime (ranked : List RankedSignal) : List RankedSignal :=
  ranked.map (fun s => { s with score := s.score * current_regime_multiplier })

/-- `Orchestrator._persist_signals`: one audit record per ranked signal whose
symbol has a feature timestamp. -/
def persist_signals (ranked : List RankedSignal) (ts_map : List (String × ℕ)) :
    List SignalRecord :=
  ranked.filterMap (fun sig =>
    (lookupKey ts_map sig.symbol).map (fun ts =>
      { symbol := sig.symbol, ts := ts, base_score := sig.base_score
        ai_adjustment := sig.ai_adjustment, final_score := sig.score
        decision := sig.decision }))

/-- The signal audit records persisted by one `Orchestrator.run_cycle`: the
truncated ranked list, regime-adjusted, then persisted. -/
def run_cycle_persisted (features : List (String × FeatureRow))
    (sentiment : List (String × SentimentResult)) (settings : AppSettings)
    (ts_map : List (String × ℕ)) : List SignalRecord :=
  persist_signals (apply_regime (rank_candidates features sentiment settings)) ts_map

/-- `models.Position` together with the meta fields the trade manager reads
(`stop_px`, `scale_target`, `final_target`); the meta is always written in
full by `TradeManager.execute`, so the fields are total here. -/
structure Position where
  symbol : String
  avg_price : ℚ
  qty : ℚ
  opened_ts : ℕ
  last_update_ts : ℕ
  stop_px : ℚ
  scale_target : ℚ
  final_target : ℚ
deriving DecidableEq

/-- `trade_manager.ManagedPosition`. -/
structure ManagedPosition where
  trade_id : ℕ
  position : Position
  scaled : Bool
deriving DecidableEq

/-- One persistence effect (the db calls issued by `TradeManager`),
restricted to the fields the specification reasons about. -/
inductive DbWrite where
  | insertOrder (symbol side order_type : String) (qty : ℚ)
      (stop_price : Option ℚ) (status : String)
  | insertFill (fill_price fill_qty : ℚ)
  | upsertPosition (p : Position)
  | insertTradeJournal (symbol : String) (entry_price qty : ℚ) (trade_id : ℕ)
  | updateTradeJournal (trade_id : ℕ) (exit_price qty pnl : ℚ)
      (reason_close : String)
  | deletePosition (symbol : String)
deriving DecidableEq

/-- Response of `OrderClient.submit_order`. -/
structure OrderResponse where
  status : String
  avg_fill_price : ℚ
deriving DecidableEq

/-- The injected order gateway: symbol, side, qty, reference price to a
response. -/
def Gateway : Type := String → String → ℚ → ℚ → OrderResponse

/-- The mutable state owned by `TradeManager`, plus the log of persistence
writes it has issued. -/
structure TMState where
  account_equity : ℚ
  positions : List (String × ManagedPosition)
  nextTradeId : ℕ
  writes : List DbWrite
deriving DecidableEq

/-- `TradeManager._position_size`. -/
def position_size (equity : ℚ) (settings : AppSettings) (price stop_px : ℚ) : ℚ :=
  let risk_amount := equity * (settings.risk_pct_per_trade / 100)
  let risk_per_share := max (price - stop_px) (1/100)
  ((pyRound (risk_amount / risk_per_share) : ℤ) : ℚ)

/-- The stop computed for a new entry in `TradeManager.execute`. -/
def entry_stop (settings : AppSettings) (price atr_value : ℚ) : ℚ :=
  max (price - atr_value * settings.atr_mult) (1/100)

/-- The body of the loop in `TradeManager.execute` for one ranked signal:
threads the state and the list of opened trade ids. -/
def executeSignal (gw : Gateway) (settings : AppSettings)
    (features : List (String × FeatureRow)) (now : ℕ)
    (acc : TMState × List ℕ) (signal : RankedSignal) : TMState × List ℕ :=
  let st := acc.1
  if signal.decision ≠ "enter_long" then acc
  else if (lookupKey st.positions signal.symbol).isSome then acc
  else
    match lookupKey features signal.symbol with
    | none => acc
    | some row =>
        let price := row.c.getD 0
        let atr_value := row.atr.getD (price * (2/100))
        let stop_px := entry_stop settings price atr_value
        let qty := position_size st.account_equity settings price stop_px
        if qty ≤ 0 then acc
        else
          let resp := gw signal.symbol "BUY" qty price
          if resp.status ≠ "FILLED" then acc
          else
            let fill_price := resp.avg_fill_price
            let pos : Position :=
              { symbol := signal.symbol, avg_price := fill_price, qty := qty
                opened_ts := now, last_update_ts := now, stop_px := stop_px
                scale_target := fill_price * (1 + settings.scale1_pct / 100)
                final_target := fill_price * (1 + settings.target_pct / 100) }
            let trade_id := st.nextTradeId
            let st' : TMState :=
              { st with
                positions := updateKey st.positions signal.symbol
                  { trade_id := trade_id, position := pos, scaled := false }
                nextTradeId := trade_id + 1
                writes := st.writes ++
                  [ .insertOrder signal.symbol "buy" "market" qty (some stop_px) "filled"
                  , .insertFill fill_price qty
                  , .upsertPosition pos
                  , .insertTradeJournal signal.symbol fill_price qty trade_id ] }
            (st', acc.2 ++ [trade_id])

/-- `TradeManager.execute`. -/
def execute (gw : Gateway) (settings : AppSettings)
    (features : List (String × FeatureRow)) (now : ℕ) (st : TMState)
    (ranked : List RankedSignal) : TMState × List ℕ :=
  ranked.foldl (executeSignal gw settings features now) (st, [])

/-- The persistence writes of `TradeManager._close_position` for one managed
position closed at `price` with `reason`. -/
def closeEvents (symbol : String) (m : ManagedPosition) (price : ℚ)
    (reason : String) : List DbWrite :=
  [ .insertOrder symbol "sell" "market" m.position.qty none "filled"
  , .insertFill price m.position.qty
  , .updateTradeJournal m.trade_id price m.position.qty
      ((price - m.position.avg_price) * m.position.qty) reason
  , .deletePosition symbol ]

/-- `TradeManager._close_position`: a defensive no-op when the symbol is not
tracked, otherwise sells the full remaining quantity, journals the pnl and
drops the symbol from the live map. -/
def close_position (st : TMState) (symbol : String) (price : ℚ)
    (reason : String) : TMState :=
  match lookupKey st.positions symbol with
  | none => st
  | some m =>
      { st with positions := eraseKey st.positions symbol
                writes := st.writes ++ closeEvents symbol m price reason }

/-- The body of the loop in `TradeManager.manage_open_positions` for one
snapshot entry of the live map. -/
def manageStep (features : List (String × FeatureRow)) (now : ℕ)
    (st : TMState) (entry : String × ManagedPosition) : TMState :=
  let symbol := entry.1
  let managed := entry.2
  match lookupKey features symbol with
  | none => st
  | some row =>
      let price := row.c.getD 0
      let ema_trail := row.ema_slow.getD price
      let p := managed.position
      if price ≤ p.stop_px then close_position st symbol price "stop hit"
      else if managed.scaled = false ∧ p.scale_target ≤ price then
        let scaled_qty := p.qty / 2
        let p' := { p with qty := p.qty - scaled_qty
                           stop_px := max p.stop_px ema_trail
                           last_update_ts := now }
        { st with
          positions := updateKey st.positions symbol
            { managed with position := p', scaled := true }
          writes := st.writes ++ [.upsertPosition p'] }
      else if p.final_target ≤ price then
        close_position st symbol price "target hit"
      else if p.stop_px < ema_trail then
        let p' := { p with stop_px := ema_trail, last_update_ts := now }
        { st with
          positions := updateKey st.positions symbol
            { managed with position := p' }
          writes := st.writes ++ [.upsertPosition p'] }
      else st

/-- `TradeManager.manage_open_positions`: iterates over a snapshot of the
live map taken at call time. -/
def manage_open_positions (features : List (String × FeatureRow)) (now : ℕ)
    (st : TMState) : TMState :=
  st.positions.foldl (manageStep features now) st

/-- The price used by `TradeManager.flatten_all` for one symbol:
`features.get(symbol, \x7b\x7d).get("c", 0.0)`. -/
def flatten_price (features : List (String × FeatureRow)) (symbol : String) : ℚ :=
  ((lookupKey features symbol).bind (fun r => r.c)).getD 0

/-- `TradeManager.flatten_all`. -/
def flatten_all (features : List (String × FeatureRow)) (st : TMState) : TMState :=
  st.positions.foldl
    (fun s entry => close_position s entry.1 (flatten_price features entry.1) "flatten")
    st

/-- Well-formedness of the live map: distinct symbols, as in a Python dict. -/
def WF (st : TMState) : Prop := (st.positions.map Prod.fst).Nodup

/-- Recognizer for journal-close writes (the only writes that record a pnl). -/
def isJournalClose : DbWrite → Bool
  | .updateTradeJournal _ _ _ _ _ => true
  | _ => false

theorem lookupKey_updateKey_self {α : Type} (l : List (String × α)) (k : String) (v : α) :
    lookupKey (updateKey l k v) k = some v := by
  induction l with
  | nil => simp [updateKey, lookupKey]
  | cons e rest ih =>
      obtain ⟨k₁, v₁⟩ := e
      by_cases h : k₁ = k
      · simp [updateKey, h, lookupKey]
      · simp [updateKey, h, lookupKey, ih]

theorem lookupKey_updateKey_ne {α : Type} (l : List (String × α)) (k k₂ : String)
    (v : α) (h : k ≠ k₂) :
    lookupKey (updateKey l k v) k₂ = lookupKey l k₂ := by
  induction l with
  | nil => simp [updateKey, lookupKey, h]
  | cons e rest ih =>
      obtain ⟨k₁, v₁⟩ := e
      by_cases h₁ : k₁ = k
      · simp [updateKey, h₁, lookupKey, h]
      · simp [updateKey, h₁, lookupKey, ih]

theorem lookupKey_eraseKey_ne {α : Type} (l : List (String × α)) (k k₂ : String)
    (h : k ≠ k₂) :
    lookupKey (eraseKey l k) k₂ = lookupKey l k₂ := by
  induction l with
  | nil => simp [eraseKey, lookupKey]
  | cons e rest ih =>
      obtain ⟨k₁, v₁⟩ := e
      by_cases h₁ : k₁ = k
      · subst h₁; simp [eraseKey, lookupKey, h]
      · simp [eraseKey, h₁, lookupKey, ih]

theorem lookupKey_eq_none_of_not_mem {α : Type} (l : List (String × α)) (k : String)
    (h : k ∉ l.map Prod.fst) : lookupKey l k = none := by
  induction l with
  | nil => simp [lookupKey]
  | cons e rest ih =>
      obtain ⟨k₁, v₁⟩ := e
      simp only [List.map_cons, List.mem_cons, not_or] at h
      simp only [lookupKey]
      rw [if_neg (fun hk => h.1 hk.symm)]
      exact ih h.2

theorem keys_eraseKey_subset {α : Type} (l : List (String × α)) (k : String) :
    (eraseKey l k).map Prod.fst ⊆ l.map Prod.fst := by
  induction l with
  | nil => simp [eraseKey]
  | cons e rest ih =>
      obtain ⟨k₁, v₁⟩ := e
      by_cases h₁ : k₁ = k
      · simp only [eraseKey, if_pos h₁, List.map_cons]
        exact List.subset_cons_of_subset _ (List.Subset.refl _)
      · simp only [eraseKey, if_neg h₁, List.map_cons]
        exact List.cons_subset_cons _ ih

theorem lookupKey_eraseKey_self {α : Type} (l : List (String × α)) (k : String)
    (h : (l.map Prod.fst).Nodup) :
    lookupKey (eraseKey l k) k = none := by
  induction l with
  | nil => simp [eraseKey, lookupKey]
  | cons e rest ih =>
      obtain ⟨k₁, v₁⟩ := e
      simp only [List.map_cons, List.nodup_cons] at h
      by_cases h₁ : k₁ = k
      · subst h₁
        simp only [eraseKey, if_pos rfl]
        exact lookupKey_eq_none_of_not_mem rest k₁ h.1
      · simp only [eraseKey, if_neg h₁, lookupKey, if_neg h₁]
        exact ih h.2

theorem mem_keys_updateKey {α : Type} (l : List (String × α)) (k k₂ : String) (v : α)
    (h : k₂ ∈ (updateKey l k v).map Prod.fst) :
    k₂ ∈ l.map Prod.fst ∨ k₂ = k := by
  induction l with
  | nil => simpa [updateKey] using h
  | cons e rest ih =>
      obtain ⟨k₁, v₁⟩ := e
      by_cases h₁ : k₁ = k
      · simp only [updateKey, if_pos h₁, List.map_cons, List.mem_cons] at h
        rcases h with h | h
        · right; exact h
        · left; simp [h]
      · simp only [updateKey, if_neg h₁, List.map_cons, List.mem_cons] at h ⊢
        rcases h with h | h
        · left; left; exact h
        · rcases ih h with h₂ | h₂
          · left; right; exact h₂
          · right; exact h₂

theorem nodup_updateKey {α : Type} (l : List (String × α)) (k : String) (v : α)
    (h : (l.map Prod.fst).Nodup) :
    ((updateKey l k v).map Prod.fst).Nodup := by
  induction l with
  | nil => simp [updateKey]
  | cons e rest ih =>
      obtain ⟨k₁, v₁⟩ := e
      simp only [List.map_cons, List.nodup_cons] at h
      by_cases h₁ : k₁ = k
      · subst h₁
        simpa [updateKey, List.nodup_cons] using h
      · simp only [updateKey, if_neg h₁, List.map_cons, List.nodup_cons]
        refine ⟨fun hmem => ?_, ih h.2⟩
        rcases mem_keys_updateKey rest k k₁ v hmem with h₂ | h₂
        · exact h.1 h₂
        · exact h₁ h₂

theorem nodup_eraseKey {α : Type} (l : List (String × α)) (k : String)
    (h : (l.map Prod.fst).Nodup) :
    ((eraseKey l k).map Prod.fst).Nodup := by
  induction l with
  | nil => simp [eraseKey]
  | cons e rest ih =>
      obtain ⟨k₁, v₁⟩ := e
      simp only [List.map_cons, List.nodup_cons] at h
      by_cases h₁ : k₁ = k
      · simp only [eraseKey, if_pos h₁]; exact h.2
      · simp only [eraseKey, if_neg h₁, List.map_cons, List.nodup_cons]
        exact ⟨fun hmem => h.1 (keys_eraseKey_subset rest k hmem), ih h.2⟩

theorem pyRound_bounds (q : ℚ) : ⌊q⌋ ≤ pyRound q ∧ pyRound q ≤ ⌊q⌋ + 1 := by
  unfold pyRound
  split_ifs <;> omega

theorem pyRound_mono {a b : ℚ} (h : a ≤ b) : pyRound a ≤ pyRound b := by
  rcases lt_or_eq_of_le (Int.floor_le_floor h) with hf | hf
  · have h₁ := (pyRound_bounds a).2
    have h₂ := (pyRound_bounds b).1
    omega
  · unfold pyRound
    rw [← hf]
    split_ifs <;> first | omega | linarith

/-- A gateway that never fills (used to instantiate the non-fill theorems). -/
def gwReject : Gateway := fun _ _ _ _ => { status := "REJECTED", avg_fill_price := 0 }

/-- A ranked signal asking for entry, as produced for a passing symbol. -/
def sigEnterAAPL : RankedSignal :=
  { symbol := "AAPL", base_score := 80, ai_adjustment := 0, context_bias := 0
    score := 80, decision := "enter_long", reasons := ["test"], gate := "PASS" }

/-- An empty book with the fixed account equity of `TradeManager.__init__`. -/
def emptyBook : TMState :=
  { account_equity := 100000, positions := [], nextTradeId := 1, writes := [] }

theorem executeSignal_nonfill (gw : Gateway) (s : AppSettings)
    (features : List (String × FeatureRow)) (now : ℕ) (acc : TMState × List ℕ)
    (signal : RankedSignal)
    (h : ∀ symbol side qty price, (gw symbol side qty price).status ≠ "FILLED") :
    executeSignal gw s features now acc signal = acc := by
  obtain ⟨st, ids⟩ := acc
  unfold executeSignal
  dsimp only
  split
  · rfl
  · split
    · rfl
    · split
      · rfl
      · split
        · rfl
        · rw [if_pos (h _ _ _ _)]

/-- C6: whenever the order gateway returns any status other than FILLED for
every submitted order, `TradeManager.execute` changes nothing: the live
position map, the trade-id counter and the persistence log are untouched and
no trade ids are returned, so the symbols stay Flat and retryable. -/
theorem execute_nonfill_is_noop (gw : Gateway) (s : AppSettings)
    (features : List (String × FeatureRow)) (now : ℕ) (st : TMState)
    (ranked : List RankedSignal)
    (h : ∀ symbol side qty price, (gw symbol side qty price).status ≠ "FILLED") :
    execute gw s features now st ranked = (st, []) := by
  unfold execute
  induction ranked with
  | nil => rfl
  | cons sig rest ih =>
      rw [List.foldl_cons, executeSignal_nonfill gw s features now _ _ h]
      exact ih

/-- Witness for C6: a rejecting gateway leaves a concrete empty book and a
concrete enter-long signal with a full feature row completely unchanged. -/
theorem execute_nonfill_is_noop_witness :
    execute gwReject defaultSettings [("AAPL", { c := some 100, atr := some 1 })] 0
      emptyBook [sigEnterAAPL] = (emptyBook, []) :=
  execute_nonfill_is_noop gwReject defaultSettings
    [("AAPL", { c := some 100, atr := some 1 })] 0 emptyBook [sigEnterAAPL]
    (fun _ _ _ _ => by simp only [gwReject]; decide)

/-- C7 counterexample: with VWAP enforcement enabled and the VWAP value
missing from the row, the rule returns not-passed, not a pass as claimed. -/
theorem vwap_missing_with_enforce_fails :
    (vwap_ok { c := some 100 } true).passed = false := rfl

/-- C7 amended: the VWAP rule passes exactly when enforcement is disabled or
both values are present with close at or above VWAP; a missing VWAP or close
passes only when enforcement is disabled (fail closed under enforcement). -/
theorem vwap_ok_passes_iff (row : FeatureRow) (enforce : Bool) :
    (vwap_ok row enforce).passed = true ↔
      (enforce = false ∨
        ∃ v cl, row.vwap = some v ∧ pyOr row.c row.close = some cl ∧ v ≤ cl) := by
  unfold vwap_ok
  rcases hv : row.vwap with _ | v
  · rcases hc : pyOr row.c row.close with _ | cl <;> simp [hv, hc]
  · rcases hc : pyOr row.c row.close with _ | cl
    · simp [hv, hc]
    · simp only [hv, hc, decide_eq_true_eq]
      constructor
      · rintro (h | h)
        · right; exact ⟨v, cl, rfl, rfl, h⟩
        · left; exact h
      · rintro (h | ⟨v₂, cl₂, hv₂, hc₂, hle⟩)
        · right; exact h
        · left
          cases hv₂
          cases hc₂
          exact hle

/-- C8: the entry stop is `max(price − ATR × atrMultiplier, 0.01)` and the
quantity is the half-even rounding of risk amount over stop distance; at
price 100, ATR 1, risk 1 percent, equity 100000 and multiplier 1.5 the stop
is 98.5 and the quantity 667; and a computed quantity at or below zero makes
the entry loop skip the symbol with no state change. -/
theorem entry_sizing_formula :
    (∀ (s : AppSettings) (price atr_value : ℚ),
        entry_stop s price atr_value = max (price - atr_value * s.atr_mult) (1/100))
    ∧ (∀ (equity : ℚ) (s : AppSettings) (price stop_px : ℚ),
        position_size equity s price stop_px =
          ((pyRound (equity * (s.risk_pct_per_trade / 100) /
            max (price - stop_px) (1/100)) : ℤ) : ℚ))
    ∧ entry_stop defaultSettings 100 1 = 197/2
    ∧ position_size 100000 defaultSettings 100 (197/2) = 667
    ∧ (∀ (gw : Gateway) (s : AppSettings) (features : List (String × FeatureRow))
        (now : ℕ) (st : TMState) (ids : List ℕ) (signal : RankedSignal)
        (row : FeatureRow),
        signal.decision = "enter_long" →
        lookupKey st.positions signal.symbol = none →
        lookupKey features signal.symbol = some row →
        position_size st.account_equity s (row.c.getD 0)
          (entry_stop s (row.c.getD 0) (row.atr.getD ((row.c.getD 0) * (2/100)))) ≤ 0 →
        executeSignal gw s features now (st, ids) signal = (st, ids)) := by
  refine ⟨fun _ _ _ => rfl, fun _ _ _ _ => rfl, ?_, ?_, ?_⟩
  · norm_num [entry_stop, defaultSettings, max_def]
  · have hmax : max ((100:ℚ) - 197/2) (1/100) = 3/2 := by
      rw [max_def]; norm_num
    have hfloor : ⌊(2000:ℚ)/3⌋ = 666 := by
      rw [Int.floor_eq_iff]; norm_num
    have harg : (100000:ℚ) * (defaultSettings.risk_pct_per_trade / 100) /
        max ((100:ℚ) - 197/2) (1/100) = 2000/3 := by
      rw [hmax]; norm_num [defaultSettings]
    show ((pyRound ((100000:ℚ) * (defaultSettings.risk_pct_per_trade / 100) /
        max ((100:ℚ) - 197/2) (1/100)) : ℤ) : ℚ) = 667
    rw [harg]
    unfold pyRound
    rw [hfloor]
    norm_num
  · intro gw s features now st ids signal row h₁ h₂ h₃ h₄
    unfold executeSignal
    dsimp only
    rw [if_neg (fun hne => hne h₁), h₂, h₃]
    dsimp only
    rw [if_pos h₄]
    try simp

/-- Witness for C8 (the skip clause): with risk percentage 0 the computed
quantity is 0 and a concrete enter-long signal is skipped untouched. -/
theorem entry_sizing_formula_witness :
    executeSignal gwReject { defaultSettings with risk_pct_per_trade := 0 }
      [("AAPL", { c := some 100, atr := some 1 })] 0 (emptyBook, []) sigEnterAAPL
      = (emptyBook, []) :=
  entry_sizing_formula.2.2.2.2 gwReject
    { defaultSettings with risk_pct_per_trade := 0 }
    [("AAPL", { c := some 100, atr := some 1 })] 0 emptyBook [] sigEnterAAPL
    { c := some 100, atr := some 1 } rfl rfl (by simp [lookupKey, sigEnterAAPL])
    (by norm_num [position_size, pyRound])

/-- C9: for fixed equity and risk percentage (both nonnegative), the computed
quantity is monotonically non-increasing in the stop distance. -/
theorem position_size_antitone (e : ℚ) (s : AppSettings) (p₁ s₁ p₂ s₂ : ℚ)
    (he : 0 ≤ e) (hr : 0 ≤ s.risk_pct_per_trade)
    (h₁ : 0 < p₁ - s₁) (h₂ : p₁ - s₁ ≤ p₂ - s₂) :
    position_size e s p₂ s₂ ≤ position_size e s p₁ s₁ := by
  unfold position_size
  dsimp only
  have hR : (0:ℚ) ≤ e * (s.risk_pct_per_trade / 100) := by positivity
  have hm₁ : (0:ℚ) < max (p₁ - s₁) (1/100) := lt_max_of_lt_right (by norm_num)
  have hmle : max (p₁ - s₁) (1/100) ≤ max (p₂ - s₂) (1/100) := max_le_max h₂ le_rfl
  have hdiv : e * (s.risk_pct_per_trade / 100) / max (p₂ - s₂) (1/100)
      ≤ e * (s.risk_pct_per_trade / 100) / max (p₁ - s₁) (1/100) := by
    gcongr
  exact_mod_cast pyRound_mono hdiv

/-- Witness for C9: widening the stop distance from 1 to 2 at the default
settings can only shrink the quantity. -/
theorem position_size_antitone_witness :
    position_size 100000 defaultSettings 100 98 ≤ position_size 100000 defaultSettings 100 99 :=
  position_size_antitone 100000 defaultSettings 100 99 100 98 (by norm_num)
    (by norm_num [defaultSettings]) (by norm_num) (by norm_num)


/-- C1 (amended): a VETO-gated symbol with a feature row is evaluated to a
signal with final score 0, decision `skip_ai_veto` and gate VETO, present in
the full evaluated set; the code applies no exclusion beyond the shared sort
and truncation. -/
theorem veto_signal_zero_score (settings : AppSettings)
    (sentiment : List (String × SentimentResult))
    (features : List (String × FeatureRow)) (symbol : String) (row : FeatureRow)
    (hmem : (symbol, row) ∈ features)
    (hgate : ((lookupKey sentiment symbol).getD neutralSentiment).gate = "VETO") :
    ∃ sig ∈ evaluate_candidates features sentiment settings,
      sig.symbol = symbol ∧ sig.score = 0 ∧ sig.decision = "skip_ai_veto" ∧
        sig.gate = "VETO" := by
  refine ⟨evalSymbol settings sentiment symbol row, List.mem_map_of_mem _ hmem, ?_⟩
  unfold evalSymbol
  dsimp only
  rw [if_pos hgate]
  exact ⟨rfl, rfl, rfl, rfl⟩

/-- A feature row that passes the EMA rule only. -/
def rowA : FeatureRow := { c := some 10, ema_fast := some 2, ema_slow := some 1 }

/-- A sentiment map gating symbol A with VETO. -/
def sentVetoA : List (String × SentimentResult) :=
  [("A", { score := -1, gate := "VETO", reasons := ["bad news"] })]

/-- Witness for C1: in a concrete one-symbol cycle the vetoed symbol appears
in the evaluated set with score 0 and decision `skip_ai_veto`. -/
theorem veto_signal_zero_score_witness :
    ∃ sig ∈ evaluate_candidates [("A", rowA)] sentVetoA defaultSettings,
      sig.symbol = "A" ∧ sig.score = 0 ∧ sig.decision = "skip_ai_veto" ∧
        sig.gate = "VETO" :=
  veto_signal_zero_score defaultSettings sentVetoA [("A", rowA)] "A" rowA
    (by simp) (by simp [lookupKey, sentVetoA])

/-- C1 counterexample: the vetoed symbol is not excluded from the returned
top-K list: with one vetoed symbol and the default top-K of 20,
`rank_candidates` returns exactly that zero-score `skip_ai_veto` signal to
the trade lifecycle manager, occupying a top-K slot. -/
theorem veto_signal_occupies_topk_slot :
    (rank_candidates [("A", rowA)] sentVetoA defaultSettings).map
      (fun sig => (sig.symbol, sig.decision)) = [("A", "skip_ai_veto")] := by
  simp [rank_candidates, evaluate_candidates, evalSymbol, sortDesc, insertDesc,
    lookupKey, sentVetoA, defaultSettings, rowA]

/-- C2 (amended): the persisted audit records of a cycle are drawn from the
already-truncated top-K ranked list: never more than top-K records, and every
persisted symbol is a symbol of the returned ranked list, so evaluated
symbols beyond the cutoff leave no audit record. -/
theorem persisted_audit_bounded_by_topk (features : List (String × FeatureRow))
    (sentiment : List (String × SentimentResult)) (settings : AppSettings)
    (ts_map : List (String × ℕ)) :
    (run_cycle_persisted features sentiment settings ts_map).length ≤
        settings.top_k_execute
      ∧ ∀ r ∈ run_cycle_persisted features sentiment settings ts_map,
          r.symbol ∈ (rank_candidates features sentiment settings).map
            (fun sig => sig.symbol) := by
  constructor
  · calc (run_cycle_persisted features sentiment settings ts_map).length
        ≤ (apply_regime (rank_candidates features sentiment settings)).length :=
          List.length_filterMap_le _ _
      _ = (rank_candidates features sentiment settings).length := List.length_map _ _
      _ ≤ settings.top_k_execute := by
          rw [rank_candidates, List.length_take]; exact min_le_left _ _
  · intro r hr
    unfold run_cycle_persisted persist_signals at hr
    rcases List.mem_filterMap.mp hr with ⟨sig, hsig, hmap⟩
    rcases Option.map_eq_some'.mp hmap with ⟨ts, _, hrec⟩
    unfold apply_regime at hsig
    rcases List.mem_map.mp hsig with ⟨sig₀, hsig₀, rfl⟩
    have : r.symbol = sig₀.symbol := by rw [← hrec]
    rw [this]
    exact List.mem_map_of_mem _ hsig₀

/-- Witness for C2 (the membership clause applied at a concrete cycle). -/
theorem persisted_audit_bounded_by_topk_witness :
    (run_cycle_persisted [("A", rowA)] [] defaultSettings [("A", 100)]).length ≤
        defaultSettings.top_k_execute
      ∧ ∀ r ∈ run_cycle_persisted [("A", rowA)] [] defaultSettings [("A", 100)],
          r.symbol ∈ (rank_candidates [("A", rowA)] [] defaultSettings).map
            (fun sig => sig.symbol) :=
  persisted_audit_bounded_by_topk [("A", rowA)] [] defaultSettings [("A", 100)]

/-- Settings with a top-K of one, to exercise truncation. -/
def settingsK1 : AppSettings := { defaultSettings with top_k_execute := 1 }

/-- C2 counterexample: with two evaluated symbols and top-K 1, only one audit
record is persisted even though both symbols have feature rows and
timestamps; the persisted set is strictly smaller than the evaluated set. -/
theorem persisted_audit_misses_evaluated_symbol :
    ([("A", rowA), ("B", rowA)] : List (String × FeatureRow)).length = 2
      ∧ (run_cycle_persisted [("A", rowA), ("B", rowA)] [] settingsK1
          [("A", 100), ("B", 100)]).map (fun r => r.symbol) = ["A"] := by
  refine ⟨rfl, ?_⟩
  simp [run_cycle_persisted, persist_signals, apply_regime, rank_candidates,
    evaluate_candidates, evalSymbol, sortDesc, insertDesc, lookupKey, settingsK1,
    defaultSettings, rowA, ema_cross_ok, vwap_ok, volume_ok, not_consolidating,
    pyOr, neutralSentiment, current_regime_multiplier, max_def, min_def]

theorem lookupKey_of_mem_nodup {α : Type} (l : List (String × α)) (e : String × α)
    (h : e ∈ l) (hnd : (l.map Prod.fst).Nodup) : lookupKey l e.1 = some e.2 := by
  induction l with
  | nil => cases h
  | cons x rest ih =>
      simp only [List.map_cons, List.nodup_cons] at hnd
      rcases List.mem_cons.mp h with rfl | h₂
      · obtain ⟨k, v⟩ := e
        simp [lookupKey]
      · have hne : x.1 ≠ e.1 := by
          intro hx
          exact hnd.1 (hx ▸ List.mem_map_of_mem Prod.fst h₂)
        obtain ⟨k, v⟩ := x
        simp only [lookupKey, if_neg hne]
        exact ih h₂ hnd.2

theorem lookupKey_isSome_of_mem_keys {α : Type} (l : List (String × α)) (k : String)
    (h : k ∈ l.map Prod.fst) : (lookupKey l k).isSome := by
  induction l with
  | nil => cases h
  | cons x rest ih =>
      obtain ⟨k₁, v₁⟩ := x
      by_cases hk : k₁ = k
      · simp [lookupKey, hk]
      · simp only [List.map_cons, List.mem_cons] at h
        rcases h with h | h
        · exact absurd h.symm hk
        · simp only [lookupKey, if_neg hk]
          exact ih h

theorem close_position_lookup_ne (st : TMState) (symbol k : String) (price : ℚ)
    (reason : String) (h : symbol ≠ k) :
    lookupKey (close_position st symbol price reason).positions k =
      lookupKey st.positions k := by
  unfold close_position
  split
  · rfl
  · exact lookupKey_eraseKey_ne _ _ _ h

theorem close_position_WF (st : TMState) (symbol : String) (price : ℚ)
    (reason : String) (h : WF st) : WF (close_position st symbol price reason) := by
  unfold close_position
  split
  · exact h
  · exact nodup_eraseKey _ _ h

theorem manageStep_lookup_ne (features : List (String × FeatureRow)) (now : ℕ)
    (st : TMState) (e : String × ManagedPosition) (k : String) (h : e.1 ≠ k) :
    lookupKey (manageStep features now st e).positions k =
      lookupKey st.positions k := by
  obtain ⟨symbol, managed⟩ := e
  unfold manageStep
  dsimp only at h ⊢
  split
  · rfl
  · split_ifs
    · exact close_position_lookup_ne st symbol k _ _ h
    · exact lookupKey_updateKey_ne _ _ _ _ h
    · exact close_position_lookup_ne st symbol k _ _ h
    · exact lookupKey_updateKey_ne _ _ _ _ h
    · rfl

theorem manageStep_WF (features : List (String × FeatureRow)) (now : ℕ)
    (st : TMState) (e : String × ManagedPosition) (h : WF st) :
    WF (manageStep features now st e) := by
  obtain ⟨symbol, managed⟩ := e
  unfold manageStep
  dsimp only
  split
  · exact h
  · split_ifs
    · exact close_position_WF st symbol _ _ h
    · exact nodup_updateKey _ _ _ h
    · exact close_position_WF st symbol _ _ h
    · exact nodup_updateKey _ _ _ h
    · exact h

theorem manageStep_self (features : List (String × FeatureRow)) (now : ℕ)
    (st : TMState) (sym : String) (m : ManagedPosition)
    (hwf : WF st) (hm : lookupKey st.positions sym = some m) :
    lookupKey (manageStep features now st (sym, m)).positions sym = none ∨
      ∃ m', lookupKey (manageStep features now st (sym, m)).positions sym = some m' ∧
        m.position.stop_px ≤ m'.position.stop_px := by
  unfold manageStep
  dsimp only
  split
  · right; exact ⟨m, hm, le_refl _⟩
  · split_ifs with h₁ h₂ h₃ h₄
    · left
      unfold close_position
      rw [hm]
      exact lookupKey_eraseKey_self _ _ hwf
    · right
      exact ⟨_, lookupKey_updateKey_self _ _ _, le_max_left _ _⟩
    · left
      unfold close_position
      rw [hm]
      exact lookupKey_eraseKey_self _ _ hwf
    · right
      exact ⟨_, lookupKey_updateKey_self _ _ _, le_of_lt h₄⟩
    · right; exact ⟨m, hm, le_refl _⟩

theorem foldl_manageStep_lookup_ne (features : List (String × FeatureRow)) (now : ℕ)
    (entries : List (String × ManagedPosition)) (st : TMState) (k : String)
    (h : ∀ e ∈ entries, e.1 ≠ k) :
    lookupKey (entries.foldl (manageStep features now) st).positions k =
      lookupKey st.positions k := by
  induction entries generalizing st with
  | nil => rfl
  | cons e rest ih =>
      rw [List.foldl_cons,
        ih (manageStep features now st e) (fun x hx => h x (List.mem_cons_of_mem _ hx))]
      exact manageStep_lookup_ne features now st e k (h e (List.mem_cons_self _ _))

theorem foldl_manageStep_WF (features : List (String × FeatureRow)) (now : ℕ)
    (entries : List (String × ManagedPosition)) (st : TMState) (h : WF st) :
    WF ((entries.foldl (manageStep features now) st)) := by
  induction entries generalizing st with
  | nil => exact h
  | cons e rest ih =>
      rw [List.foldl_cons]
      exact ih _ (manageStep_WF features now st e h)

theorem foldl_manageStep_stop (features : List (String × FeatureRow)) (now : ℕ)
    (entries : List (String × ManagedPosition)) :
    ∀ (st : TMState) (sym : String) (m m' : ManagedPosition),
      WF st → (entries.map Prod.fst).Nodup →
      (∀ e ∈ entries, e.1 = sym → e.2 = m) →
      lookupKey st.positions sym = some m →
      lookupKey (entries.foldl (manageStep features now) st).positions sym = some m' →
      m.position.stop_px ≤ m'.position.stop_px := by
  induction entries with
  | nil =>
      intro st sym m m' _ _ _ hm hm'
      rw [List.foldl_nil, hm] at hm'
      cases hm'
      exact le_refl _
  | cons e rest ih =>
      intro st sym m m' hwf hnodup hcoh hm hm'
      rw [List.foldl_cons] at hm'
      simp only [List.map_cons, List.nodup_cons] at hnodup
      by_cases hk : e.1 = sym
      · have he₂ : e.2 = m := hcoh e (List.mem_cons_self _ _) hk
        have heq : e = (sym, m) := by
          obtain ⟨a, b⟩ := e
          cases hk
          cases he₂
          rfl
        subst heq
        have hrest : ∀ x ∈ rest, x.1 ≠ sym := by
          intro x hx hxk
          have hmem : x.1 ∈ rest.map Prod.fst := List.mem_map_of_mem Prod.fst hx
          rw [hxk] at hmem
          exact hnodup.1 hmem
        rw [foldl_manageStep_lookup_ne features now rest _ sym hrest] at hm'
        rcases manageStep_self features now st sym m hwf hm with hnone | ⟨m₂, hsome, hle⟩
        · rw [hnone] at hm'; cases hm'
        · rw [hsome] at hm'
          cases hm'
          exact hle
      · have hm₂ : lookupKey (manageStep features now st e).positions sym = some m := by
          rw [manageStep_lookup_ne features now st e sym hk]
          exact hm
        exact ih (manageStep features now st e) sym m m'
          (manageStep_WF features now st e hwf) hnodup.2
          (fun x hx hxk => hcoh x (List.mem_cons_of_mem _ hx) hxk) hm₂ hm'

theorem manage_stop_single (features : List (String × FeatureRow)) (now : ℕ)
    (st : TMState) (sym : String) (m m' : ManagedPosition)
    (hwf : WF st) (hm : lookupKey st.positions sym = some m)
    (hm' : lookupKey (manage_open_positions features now st).positions sym = some m') :
    m.position.stop_px ≤ m'.position.stop_px := by
  unfold manage_open_positions at hm'
  refine foldl_manageStep_stop features now st.positions st sym m m' hwf hwf ?_ hm hm'
  intro e he hek
  have := lookupKey_of_mem_nodup st.positions e he hwf
  rw [hek, hm] at this
  injection this.symm

theorem manage_lookup_none (features : List (String × FeatureRow)) (now : ℕ)
    (st : TMState) (sym : String)
    (hm : lookupKey st.positions sym = none) :
    lookupKey (manage_open_positions features now st).positions sym = none := by
  unfold manage_open_positions
  rw [foldl_manageStep_lookup_ne features now st.positions st sym ?_]
  · exact hm
  · intro e he hek
    have hmem : e.1 ∈ st.positions.map Prod.fst := List.mem_map_of_mem Prod.fst he
    rw [hek] at hmem
    have := lookupKey_isSome_of_mem_keys st.positions sym hmem
    rw [hm] at this
    cases this

/-- A sequence of manage calls, each with its own feature snapshot and clock
reading, as issued cycle after cycle by the orchestrator. -/
def manage_sequence (snaps : List ((List (String × FeatureRow)) × ℕ))
    (st : TMState) : TMState :=
  snaps.foldl (fun s snap => manage_open_positions snap.1 snap.2 s) st

theorem manage_WF (features : List (String × FeatureRow)) (now : ℕ)
    (st : TMState) (h : WF st) : WF (manage_open_positions features now st) :=
  foldl_manageStep_WF features now st.positions st h

theorem manage_sequence_lookup_none
    (snaps : List ((List (String × FeatureRow)) × ℕ)) (st : TMState) (sym : String)
    (hm : lookupKey st.positions sym = none) :
    lookupKey (manage_sequence snaps st).positions sym = none := by
  induction snaps generalizing st with
  | nil => exact hm
  | cons snap rest ih =>
      unfold manage_sequence
      rw [List.foldl_cons]
      exact ih _ (manage_lookup_none snap.1 snap.2 st sym hm)

/-- C3: over any sequence of manage calls with arbitrary feature snapshots,
the stop price of a position that stays open is monotonically non-decreasing:
the scale step sets it to the max of the current stop and the trailing EMA
and the trail step raises it only when the trailing EMA exceeds it; no branch
ever lowers it. -/
theorem stop_monotone_over_lifetime
    (snaps : List ((List (String × FeatureRow)) × ℕ)) (st : TMState)
    (sym : String) (m m' : ManagedPosition)
    (hwf : WF st) (hm : lookupKey st.positions sym = some m)
    (hm' : lookupKey (manage_sequence snaps st).positions sym = some m') :
    m.position.stop_px ≤ m'.position.stop_px := by
  induction snaps generalizing st m with
  | nil =>
      unfold manage_sequence at hm'
      rw [List.foldl_nil, hm] at hm'
      cases hm'
      exact le_refl _
  | cons snap rest ih =>
      unfold manage_sequence at hm'
      rw [List.foldl_cons] at hm'
      have hm'' : lookupKey (manage_sequence rest
          (manage_open_positions snap.1 snap.2 st)).positions sym = some m' := hm'
      cases hmid : lookupKey (manage_open_positions snap.1 snap.2 st).positions sym with
      | none =>
          rw [manage_sequence_lookup_none rest _ sym hmid] at hm''
          cases hm''
      | some m₂ =>
          have h₁ := manage_stop_single snap.1 snap.2 st sym m m₂ hwf hm hmid
          have h₂ := ih (manage_open_positions snap.1 snap.2 st) m₂
            (manage_WF snap.1 snap.2 st hwf) hmid hm''
          exact le_trans h₁ h₂

/-- A concrete open position used to instantiate the lifecycle theorems. -/
def posW : Position :=
  { symbol := "AAPL", avg_price := 100, qty := 100, opened_ts := 0
    last_update_ts := 0, stop_px := 98, scale_target := 104, final_target := 108 }

/-- The concrete position wrapped as a managed entry. -/
def mW : ManagedPosition := { trade_id := 3, position := posW, scaled := false }

/-- A one-position book holding `mW`. -/
def stOneW : TMState :=
  { account_equity := 100000, positions := [("AAPL", mW)], nextTradeId := 4
    writes := [] }

/-- A snapshot row whose trailing EMA sits above the current stop. -/
def rowTrail : FeatureRow := { c := some 100, ema_slow := some 99 }

/-- The managed entry after the trail step raises the stop to 99. -/
def mWTrail : ManagedPosition :=
  { trade_id := 3
    position := { symbol := "AAPL", avg_price := 100, qty := 100, opened_ts := 0
                  last_update_ts := 5, stop_px := 99, scale_target := 104
                  final_target := 108 }
    scaled := false }

/-- Witness for C3: one manage call over a snapshot with trailing EMA 99
raises the stop of the concrete position from 98, never below. -/
theorem stop_monotone_over_lifetime_witness :
    mW.position.stop_px ≤ mWTrail.position.stop_px :=
  stop_monotone_over_lifetime [([("AAPL", rowTrail)], 5)] stOneW "AAPL" mW mWTrail
    (by simp [WF, stOneW])
    (by simp [lookupKey, stOneW])
    (by simp [manage_sequence, manage_open_positions, manageStep, lookupKey,
      updateKey, stOneW, mW, posW, rowTrail, mWTrail,
      show ¬((100:ℚ) ≤ 98) from by norm_num,
      show ¬((104:ℚ) ≤ 100) from by norm_num,
      show ¬((108:ℚ) ≤ 100) from by norm_num,
      show ((98:ℚ) < 99) from by norm_num])

/-- One live-map entry is quiescent for a snapshot when no manage branch
fires on it: price strictly above the stop, no pending scale-out, final
target not reached, trailing EMA not above the stop. -/
def quiescentEntry (features : List (String × FeatureRow))
    (e : String × ManagedPosition) : Bool :=
  match lookupKey features e.1 with
  | none => true
  | some row =>
      let price := row.c.getD 0
      let ema_trail := row.ema_slow.getD price
      let p := e.2.position
      decide (p.stop_px < price) &&
        (e.2.scaled || decide (price < p.scale_target)) &&
        decide (price < p.final_target) && decide (ema_trail ≤ p.stop_px)

theorem manageStep_quiescent (features : List (String × FeatureRow)) (now : ℕ)
    (st : TMState) (e : String × ManagedPosition)
    (h : quiescentEntry features e = true) :
    manageStep features now st e = st := by
  obtain ⟨symbol, managed⟩ := e
  unfold quiescentEntry at h
  unfold manageStep
  dsimp only at h ⊢
  split
  · rfl
  · rename_i row hrow
    rw [hrow] at h
    simp only [Bool.and_eq_true, Bool.or_eq_true, decide_eq_true_eq] at h
    obtain ⟨⟨⟨h₁, h₂⟩, h₃⟩, h₄⟩ := h
    rw [if_neg (not_le.mpr h₁)]
    rw [if_neg ?_]
    rw [if_neg (not_le.mpr h₃)]
    rw [if_neg (not_lt.mpr h₄)]
    rintro ⟨hns, hsc⟩
    rcases h₂ with h₂ | h₂
    · rw [hns] at h₂; cases h₂
    · exact absurd hsc (not_le.mpr h₂)

theorem manage_noop_of_quiescent (features : List (String × FeatureRow)) (now : ℕ)
    (st : TMState)
    (h : ∀ e ∈ st.positions, quiescentEntry features e = true) :
    manage_open_positions features now st = st := by
  unfold manage_open_positions
  have hfold : ∀ (entries : List (String × ManagedPosition)) (s : TMState),
      (∀ e ∈ entries, quiescentEntry features e = true) →
      entries.foldl (manageStep features now) s = s := by
    intro entries
    induction entries with
    | nil => intro s _; rfl
    | cons e rest ih =>
        intro s hq
        rw [List.foldl_cons,
          manageStep_quiescent features now s e (hq e (List.mem_cons_self _ _))]
        exact ih s (fun x hx => hq x (List.mem_cons_of_mem _ hx))
  exact hfold st.positions st h

theorem manageStep_writes_le (features : List (String × FeatureRow)) (now : ℕ)
    (st : TMState) (e : String × ManagedPosition) :
    st.writes.length ≤ (manageStep features now st e).writes.length := by
  obtain ⟨symbol, managed⟩ := e
  unfold manageStep
  dsimp only
  split
  · exact le_refl _
  · split_ifs
    · unfold close_position
      split
      · exact le_refl _
      · simp
    · simp
    · unfold close_position
      split
      · exact le_refl _
      · simp
    · simp
    · exact le_refl _

theorem foldl_manageStep_writes_le (features : List (String × FeatureRow)) (now : ℕ)
    (entries : List (String × ManagedPosition)) (st : TMState) :
    st.writes.length ≤ ((entries.foldl (manageStep features now) st)).writes.length := by
  induction entries generalizing st with
  | nil => exact le_refl _
  | cons e rest ih =>
      rw [List.foldl_cons]
      exact le_trans (manageStep_writes_le features now st e) (ih _)

theorem manageStep_writes_lt_of_not_quiescent (features : List (String × FeatureRow))
    (now : ℕ) (st : TMState) (sym : String) (m : ManagedPosition)
    (hm : lookupKey st.positions sym = some m)
    (hq : quiescentEntry features (sym, m) = false) :
    st.writes.length < (manageStep features now st (sym, m)).writes.length := by
  unfold quiescentEntry at hq
  unfold manageStep
  dsimp only at hq ⊢
  split
  · rename_i hrow
    rw [hrow] at hq
    cases hq
  · rename_i row hrow
    rw [hrow] at hq
    dsimp only at hq
    split_ifs with h₁ h₂ h₃ h₄
    · unfold close_position
      rw [hm]
      simp only [closeEvents, List.length_append, List.length_cons, List.length_nil]
      omega
    · simp only [List.length_append, List.length_cons, List.length_nil]
      omega
    · unfold close_position
      rw [hm]
      simp only [closeEvents, List.length_append, List.length_cons, List.length_nil]
      omega
    · simp only [List.length_append, List.length_cons, List.length_nil]
      omega
    · exfalso
      have ha : decide (m.position.stop_px < row.c.getD 0) = true :=
        decide_eq_true (not_le.mp h₁)
      have hb : (m.scaled || decide (row.c.getD 0 < m.position.scale_target)) = true := by
        cases hsc : m.scaled with
        | true => simp
        | false =>
            simp only [Bool.false_or]
            refine decide_eq_true (not_le.mp ?_)
            intro hle
            exact h₂ ⟨hsc, hle⟩
      have hc : decide (row.c.getD 0 < m.position.final_target) = true :=
        decide_eq_true (not_le.mp h₃)
      have hd : decide (row.ema_slow.getD (row.c.getD 0) ≤ m.position.stop_px) = true :=
        decide_eq_true (not_lt.mp h₄)
      rw [ha, hb, hc, hd] at hq
      simp at hq

theorem foldl_manageStep_writes_lt (features : List (String × FeatureRow)) (now : ℕ) :
    ∀ (entries : List (String × ManagedPosition)) (st : TMState),
      (∀ x ∈ entries, lookupKey st.positions x.1 = some x.2) →
      (entries.map Prod.fst).Nodup →
      (∃ e ∈ entries, quiescentEntry features e = false) →
      st.writes.length < ((entries.foldl (manageStep features now) st)).writes.length := by
  intro entries
  induction entries with
  | nil =>
      rintro st _ _ ⟨e, he, _⟩
      cases he
  | cons e rest ih =>
      rintro st hlook hnd hex
      rw [List.foldl_cons]
      cases hq : quiescentEntry features e with
      | false =>
          obtain ⟨sym, m⟩ := e
          have hstep := manageStep_writes_lt_of_not_quiescent features now st sym m
            (hlook (sym, m) (List.mem_cons_self _ _)) hq
          exact lt_of_lt_of_le hstep (foldl_manageStep_writes_le features now rest _)
      | true =>
          rw [manageStep_quiescent features now st e hq]
          simp only [List.map_cons, List.nodup_cons] at hnd
          refine ih st (fun x hx => hlook x (List.mem_cons_of_mem _ hx)) hnd.2 ?_
          obtain ⟨x, hx, hxq⟩ := hex
          rcases List.mem_cons.mp hx with rfl | hx₂
          · rw [hq] at hxq
            cases hxq
          · exact ⟨x, hx₂, hxq⟩

theorem manage_noop_iff_quiescent (features : List (String × FeatureRow)) (now : ℕ)
    (st : TMState) (hwf : WF st) :
    manage_open_positions features now st = st ↔
      ∀ e ∈ st.positions, quiescentEntry features e = true := by
  constructor
  · intro h e he
    by_contra hne
    have hfalse : quiescentEntry features e = false := by
      cases hqe : quiescentEntry features e
      · rfl
      · exact absurd hqe hne
    have hlt := foldl_manageStep_writes_lt features now st.positions st
      (fun x hx => lookupKey_of_mem_nodup st.positions x hx hwf) hwf ⟨e, he, hfalse⟩
    have hlt₂ : st.writes.length <
        (manage_open_positions features now st).writes.length := hlt
    rw [h] at hlt₂
    exact absurd hlt₂ (lt_irrefl _)
  · exact manage_noop_of_quiescent features now st

/-- C4 (amended): a second manage call with the same unchanged snapshot
produces the same final state and the same persistence writes as one call
exactly when the first call left every surviving position quiescent (price
strictly above the stop, no pending scale-out, final target not reached,
trailing EMA not above the stop); any non-quiescent survivor forces the
second call to mutate state and append writes, so the code is not idempotent
in general. -/
theorem manage_twice_eq_once_iff_quiescent (features : List (String × FeatureRow))
    (now : ℕ) (st : TMState) (hwf : WF st) :
    (manage_open_positions features now (manage_open_positions features now st)
        = manage_open_positions features now st) ↔
      ∀ e ∈ (manage_open_positions features now st).positions,
        quiescentEntry features e = true :=
  manage_noop_iff_quiescent features now (manage_open_positions features now st)
    (manage_WF features now st hwf)

/-- A snapshot leaving the concrete position quiescent. -/
def rowQuiet : FeatureRow := { c := some 100, ema_slow := some 97 }

/-- Witness for C4: with price 100, stop 98, targets 104 and 108 and trailing
EMA 97, the first manage call fires no branch, every surviving position is
quiescent, and the second call repeats the same state. -/
theorem manage_twice_eq_once_iff_quiescent_witness :
    manage_open_positions [("AAPL", rowQuiet)] 5
        (manage_open_positions [("AAPL", rowQuiet)] 5 stOneW)
      = manage_open_positions [("AAPL", rowQuiet)] 5 stOneW :=
  (manage_twice_eq_once_iff_quiescent [("AAPL", rowQuiet)] 5 stOneW
      (by simp [WF, stOneW])).mpr
    (by simp [manage_open_positions, manageStep, quiescentEntry, lookupKey,
      stOneW, mW, posW, rowQuiet,
      show ¬((100:ℚ) ≤ 98) from by norm_num,
      show ¬((104:ℚ) ≤ 100) from by norm_num,
      show ¬((108:ℚ) ≤ 100) from by norm_num,
      show ¬((98:ℚ) < 97) from by norm_num,
      show ((98:ℚ) < 100) from by norm_num,
      show ((100:ℚ) < 104) from by norm_num,
      show ((100:ℚ) < 108) from by norm_num,
      show ((97:ℚ) ≤ 98) from by norm_num])

/-- A snapshot that makes the concrete position scale and then, on a second
call, close at the final target. -/
def rowRunup : FeatureRow := { c := some 110, ema_slow := some 99 }

/-- C4 counterexample: with price 110 above both targets, the first manage
call scales the position (first match wins and stops the cycle for that
symbol) and the identical second call then closes it at the target, mutating
state and issuing further persistence writes, so twice is not once. -/
theorem manage_twice_not_idempotent :
    manage_open_positions [("AAPL", rowRunup)] 5
        (manage_open_positions [("AAPL", rowRunup)] 5 stOneW)
      ≠ manage_open_positions [("AAPL", rowRunup)] 5 stOneW := by
  simp [manage_open_positions, manageStep, close_position, closeEvents,
    lookupKey, updateKey, eraseKey, stOneW, mW, posW, rowRunup, max_def,
    show ¬((110:ℚ) ≤ 98) from by norm_num,
    show ((104:ℚ) ≤ 110) from by norm_num,
    show ((98:ℚ) ≤ 99) from by norm_num,
    show ¬((110:ℚ) ≤ 99) from by norm_num,
    show ((108:ℚ) ≤ 110) from by norm_num]

theorem flatten_fold (features : List (String × FeatureRow)) :
    ∀ (entries : List (String × ManagedPosition)) (st : TMState),
      st.positions = entries → (entries.map Prod.fst).Nodup →
      (entries.foldl
          (fun s e => close_position s e.1 (flatten_price features e.1) "flatten")
          st).positions = []
      ∧ (entries.foldl
          (fun s e => close_position s e.1 (flatten_price features e.1) "flatten")
          st).writes = st.writes ++
          (entries.map (fun e =>
            closeEvents e.1 e.2 (flatten_price features e.1) "flatten")).flatten := by
  intro entries
  induction entries with
  | nil =>
      intro st hpos _
      rw [List.foldl_nil]
      exact ⟨hpos, by simp⟩
  | cons e rest ih =>
      intro st hpos hnd
      obtain ⟨k, v⟩ := e
      simp only [List.map_cons, List.nodup_cons] at hnd
      rw [List.foldl_cons]
      have hstep : close_position st k (flatten_price features k) "flatten" =
          { st with positions := rest,
                    writes := st.writes ++
                      closeEvents k v (flatten_price features k) "flatten" } := by
        unfold close_position
        have hlook : lookupKey st.positions k = some v := by
          rw [hpos]; simp [lookupKey]
        have herase : eraseKey st.positions k = rest := by
          rw [hpos]; simp [eraseKey]
        rw [hlook, herase]
      rw [hstep]
      have hres := ih
        ⟨st.account_equity, rest, st.nextTradeId,
          st.writes ++ closeEvents k v (flatten_price features k) "flatten"⟩
        rfl hnd.2
      refine ⟨hres.1, ?_⟩
      rw [hres.2]
      simp [List.append_assoc]

/-- C5 (amended): flatten-all closes every currently open or scaled position
exactly once with reason "flatten" and leaves the live map empty; the price
used is the latest close when the symbol has a feature row with a close, and
0.0 otherwise — a symbol with no current feature row is not skipped but
closed at price 0. -/
theorem flatten_all_closes_every_position (features : List (String × FeatureRow))
    (st : TMState) (hwf : WF st) :
    (flatten_all features st).positions = []
      ∧ (flatten_all features st).writes = st.writes ++
          (st.positions.map (fun e =>
            closeEvents e.1 e.2 (flatten_price features e.1) "flatten")).flatten :=
  flatten_fold features st.positions st rfl hwf

/-- A second concrete position on another symbol. -/
def posB : Position :=
  { symbol := "MSFT", avg_price := 50, qty := 10, opened_ts := 0
    last_update_ts := 0, stop_px := 45, scale_target := 52, final_target := 54 }

/-- The second position wrapped as a scaled managed entry. -/
def mB : ManagedPosition := { trade_id := 9, position := posB, scaled := true }

/-- A two-position book. -/
def stTwoW : TMState :=
  { account_equity := 100000, positions := [("AAPL", mW), ("MSFT", mB)]
    nextTradeId := 10, writes := [] }

/-- A snapshot carrying a row only for the first of the two symbols. -/
def fsFlat : List (String × FeatureRow) := [("AAPL", { c := some 102 })]

/-- Witness for C5: flattening a two-position book (one symbol with a row,
one without) empties the live map and journals one close per symbol. -/
theorem flatten_all_closes_every_position_witness :
    (flatten_all fsFlat stTwoW).positions = []
      ∧ (flatten_all fsFlat stTwoW).writes = stTwoW.writes ++
          (stTwoW.positions.map (fun e =>
            closeEvents e.1 e.2 (flatten_price fsFlat e.1) "flatten")).flatten :=
  flatten_all_closes_every_position fsFlat stTwoW (by simp [WF, stTwoW])

/-- C5 counterexample: a position whose symbol has no feature row is not
skipped: flatten-all closes it anyway at price 0, emptying the live map and
journaling a close with exit price 0 and pnl −10000 for the 100-share
position entered at 100. -/
theorem flatten_closes_missing_row_at_zero :
    (flatten_all [] stOneW).positions = []
      ∧ DbWrite.updateTradeJournal 3 0 100 (-10000) "flatten"
          ∈ (flatten_all [] stOneW).writes := by
  simp [flatten_all, close_position, closeEvents, flatten_price, lookupKey,
    eraseKey, stOneW, mW, posW,
    show ((0:ℚ) - 100) * 100 = -10000 from by norm_num,
    show (100:ℚ) * 100 = 10000 from by norm_num]

/-- C10: when a position is scaled out and later closed, the only journaled
pnl is (exit − average entry) × the remaining quantity — the unrounded half
qty/2, possibly fractional; the scale-out step itself emits no journal write,
so the proceeds of the scale-out sale never enter any journaled pnl. -/
theorem scaled_close_journal_pnl (features : List (String × FeatureRow)) (now : ℕ)
    (st : TMState) (sym : String) (m : ManagedPosition) (row : FeatureRow)
    (h0 : st.positions = [(sym, m)]) (hw : st.writes = [])
    (hns : m.scaled = false) (hrow : lookupKey features sym = some row)
    (hstop : m.position.stop_px < row.c.getD 0)
    (hsc : m.position.scale_target ≤ row.c.getD 0)
    (price₂ : ℚ) (reason : String) :
    ((close_position (manage_open_positions features now st) sym price₂
        reason).writes).filter isJournalClose
      = [DbWrite.updateTradeJournal m.trade_id price₂ (m.position.qty / 2)
          ((price₂ - m.position.avg_price) * (m.position.qty / 2)) reason] := by
  have hq : m.position.qty - m.position.qty / 2 = m.position.qty / 2 := by ring
  unfold manage_open_positions
  rw [h0, List.foldl_cons, List.foldl_nil]
  unfold manageStep
  dsimp only
  rw [hrow]
  dsimp only
  rw [if_neg (not_le.mpr hstop), if_pos ⟨hns, hsc⟩]
  unfold close_position
  dsimp only
  rw [lookupKey_updateKey_self]
  dsimp only
  rw [hw]
  simp [closeEvents, isJournalClose, hq]

/-- A position with an odd quantity, so that the scaled half is fractional. -/
def posOdd : Position :=
  { symbol := "NVDA", avg_price := 100, qty := 667, opened_ts := 0
    last_update_ts := 0, stop_px := 98, scale_target := 104, final_target := 108 }

/-- The odd-quantity position wrapped as a managed entry. -/
def mOdd : ManagedPosition := { trade_id := 7, position := posOdd, scaled := false }

/-- A one-position book holding the odd-quantity position. -/
def stOdd : TMState :=
  { account_equity := 100000, positions := [("NVDA", mOdd)], nextTradeId := 8
    writes := [] }

/-- A snapshot at the scale target. -/
def rowScale : FeatureRow := { c := some 104, ema_slow := some 99 }

/-- Witness for C10: scaling 667 shares leaves 333.5 and the close journals
pnl = (110 − 100) × 333.5 only. -/
theorem scaled_close_journal_pnl_witness :
    ((close_position (manage_open_positions [("NVDA", rowScale)] 6 stOdd) "NVDA"
        110 "target hit").writes).filter isJournalClose
      = [DbWrite.updateTradeJournal 7 110 ((667:ℚ) / 2)
          ((110 - 100) * ((667:ℚ) / 2)) "target hit"] := by
  have h := scaled_close_journal_pnl [("NVDA", rowScale)] 6 stOdd "NVDA" mOdd
    rowScale rfl rfl rfl (by simp [lookupKey])
    (by norm_num [mOdd, posOdd, rowScale]) (by norm_num [mOdd, posOdd, rowScale])
    110 "target hit"
  simpa [mOdd, posOdd] using h
